import Mathlib

set_option maxHeartbeats 1000000

namespace DataTransfer

/-! Shallow embedding of `src/dolma_batch_process.py`: a batch ETL step that
reads a manifest of gzip-compressed JSON-lines files, extracts the nested
`metadata.url` field from every record, derives the registered domain of each
URL with a domain-extraction UDF, exports the (url, domain) rows to a parquet
file, and uploads that file to a remote dataset repository. -/

deriving instance DecidableEq for Except

/-- Python-level exception values raised by the modelled code. -/
inductive PyErr where
  | attributeError (name : String)
  | fileNotFound (path : String)
  | parseError (path : String)
  | ioError (msg : String)
deriving DecidableEq

/-! ### Model of the external tldextract library

`extract_domain_udf` (src/dolma_batch_process.py, lines 22-35) delegates URL
parsing to the external `tldextract` package.  The model below follows that
library's documented behaviour: strip a scheme ending in `://`, cut the
network location at the first `/`, `?` or `#`, drop userinfo before the last
`@` and a port after `:`, split the host on dots, and match the longest
registered public suffix from the suffix list.  `psl` is a representative
sample of the public suffix list, enough to exercise longest-match (both
`uk` and `co.uk` are present). -/

/-- Sample of the public suffix list used by the tldextract model. -/
def psl : List (List Char) :=
  ["com".data, "org".data, "net".data, "edu".data, "io".data, "uk".data, "co.uk".data]

/-- Split a character list on the dot character; mirrors splitting a host
into labels (an empty input yields one empty label, as in Python's split). -/
def splitDots : List Char → List (List Char)
  | [] => [[]]
  | c :: rest =>
    if c = '.' then [] :: splitDots rest
    else
      match splitDots rest with
      | [] => [[c]]
      | l :: ls => (c :: l) :: ls

/-- Join labels back with dots (inverse of `splitDots` on dot-free labels). -/
def joinDots : List (List Char) → List Char
  | [] => []
  | [l] => l
  | l :: ls => l ++ '.' :: joinDots ls

/-- Longest suffix of the label list whose dot-joined form is a registered
public suffix; empty if no suffix of the labels is registered. -/
def pslSuffixLabels : List (List Char) → List (List Char)
  | [] => []
  | l :: rest =>
    if psl.contains (joinDots (l :: rest)) then l :: rest else pslSuffixLabels rest

/-- Scan for the first occurrence of the three characters of a scheme
separator and return what follows it, if any. -/
def dropSchemeAux : List Char → Option (List Char)
  | ':' :: '/' :: '/' :: rest => some rest
  | _ :: rest => dropSchemeAux rest
  | [] => none

/-- Remove a URL scheme: everything up to and including the first scheme
separator, or the unchanged input when there is none. -/
def dropScheme (cs : List Char) : List Char :=
  (dropSchemeAux cs).getD cs

/-- Characters that terminate the network-location part of a URL. -/
def isNetlocEnd (c : Char) : Bool :=
  c = '/' || c = '?' || c = '#'

/-- Host of a URL: drop the scheme, cut at the first path, query or fragment
delimiter, keep what follows the last at sign, and cut a port at a colon. -/
def hostOf (cs : List Char) : List Char :=
  let netloc := (dropScheme cs).takeWhile (fun c => !isNetlocEnd c)
  let afterAt := (netloc.reverse.takeWhile (fun c => c != '@')).reverse
  afterAt.takeWhile (fun c => c != ':')

/-- Core of the tldextract model: subdomain, domain and suffix of the host's
labels under longest registered public suffix matching. -/
def extractCore (cs : List Char) : List Char × List Char × List Char :=
  let labels := splitDots (hostOf cs)
  let sufL := pslSuffixLabels labels
  let pre := labels.take (labels.length - sufL.length)
  (joinDots pre.dropLast, pre.getLastD [], joinDots sufL)

/-- Result type of the modelled tldextract extract call. -/
structure ExtractResult where
  subdomain : String
  domain : String
  suffix : String
deriving DecidableEq

/-- Model of tldextract.extract over strings. -/
def tldextract_extract (u : String) : ExtractResult :=
  let r := extractCore u.data
  ⟨String.mk r.1, String.mk r.2.1, String.mk r.2.2⟩

/-- Model of the call to tldextract.extract as made inside the try block of
`extract_domain_udf`: a Python call that may in principle raise. -/
def tldextract_extract_checked (u : String) : Except PyErr ExtractResult :=
  Except.ok (tldextract_extract u)

/-- Embedding of `extract_domain_udf` (src/dolma_batch_process.py, lines
22-35): None maps to None, any exception from tldextract is caught and mapped
to None, an empty domain or suffix maps to None, and otherwise the result is
the f-string `"{extracted.domain}.{extracted.suffix}"`. -/
def extract_domain_udf (url : Option String) : Except PyErr (Option String) :=
  match url with
  | none => Except.ok none
  | some u =>
    match tldextract_extract_checked u with
    | Except.error _ => Except.ok none
    | Except.ok e =>
      if e.domain = "" ∨ e.suffix = "" then Except.ok none
      else Except.ok (some (e.domain ++ "." ++ e.suffix))

example : extract_domain_udf (some "https://sub.example.co.uk/page") =
    Except.ok (some "example.co.uk") := by decide

example : extract_domain_udf (some "not a url") = Except.ok none := by decide

example : extract_domain_udf none = Except.ok none := by decide

/-! ### Repository identifier composition and upload

Embedding of `upload_to_hf` (src/dolma_batch_process.py, lines 136-176).
The repository id is built from `[args.hf_username, args.hf_base_dataset_name]`
plus the variant when it is truthy and its lowercase form differs from
"default"; the joined id then has doubled underscores collapsed
(`.replace("__", "_")`) and leading/trailing underscores stripped
(`.strip("_")`). -/

/-- Left-to-right non-overlapping replacement of two underscores with one,
mirroring Python's str.replace("__", "_"). -/
def replaceDD : List Char → List Char
  | '_' :: '_' :: rest => '_' :: replaceDD rest
  | c :: rest => c :: replaceDD rest
  | [] => []

/-- Remove leading and trailing underscores, mirroring str.strip("_"). -/
def stripUnderscores (cs : List Char) : List Char :=
  ((cs.dropWhile (fun c => c = '_')).reverse.dropWhile (fun c => c = '_')).reverse

/-- Python str.lower, mapping each character to lowercase. -/
def pyLower (s : String) : String :=
  String.mk (s.data.map Char.toLower)

/-- Python's str.join with a single underscore separator, at character level. -/
def joinUnderscore : List String → List Char
  | [] => []
  | [s] => s.data
  | s :: rest => s.data ++ '_' :: joinUnderscore rest

/-- The parts joined into the repository id (lines 151-153): username and base
name, plus the variant when it is truthy and not "default" case-insensitively. -/
def repo_id_parts (username base : String) (variant : Option String) : List String :=
  match variant with
  | none => [username, base]
  | some v =>
    if v ≠ "" ∧ pyLower v ≠ "default" then [username, base, v] else [username, base]

/-- The repository id computed by `upload_to_hf` (lines 151-155). -/
def compose_repo_id (username base : String) (variant : Option String) : String :=
  String.mk (stripUnderscores (replaceDD (joinUnderscore (repo_id_parts username base variant))))

example : compose_repo_id "alice" "mydata" none = "alice_mydata" := by decide

/-! ### File system, records and the batch pipeline -/

/-- The one nested object the pipeline reads from each JSON record. -/
structure MetadataObj where
  url : Option String
deriving DecidableEq

/-- One line of a gzip-compressed JSON-lines input file; the pipeline only
dereferences the nested path `metadata.url`. -/
structure JSONRecord where
  metadata : Option MetadataObj
deriving DecidableEq

/-- One output row of the extraction query: url and derived domain. -/
abbrev Row := Option String × Option String

/-- Content of a file on disk as the pipeline can perceive it: a delimited
manifest, a parseable gzip JSON-lines file, or bytes that fail to decompress
or parse. -/
inductive Blob where
  | csvRows (rows : List (String × String))
  | jsonlGz (records : List JSONRecord)
  | corrupt
deriving DecidableEq

/-- Local file system state: readable input files by path, output files by
path with the rows they hold, and a flag making the next write fail midway
(disk full). -/
structure FS where
  inputs : List (String × Blob)
  outputs : List (String × List Row)
  diskFull : Bool
deriving DecidableEq

/-- Whether a file exists at `path` among the written outputs (os.path.exists). -/
def FS.hasFile (fs : FS) (path : String) : Bool :=
  fs.outputs.any (fun x => x.1 == path)

/-- Write an output file holding `rows` at `path`. -/
def FS.writeOutput (fs : FS) (path : String) (rows : List Row) : FS :=
  { fs with outputs := (path, rows) :: fs.outputs }

/-- Remove the file at `path` if present (os.remove after the existence check). -/
def FS.removeOutput (fs : FS) (path : String) : FS :=
  { fs with outputs := fs.outputs.filter (fun x => x.1 != path) }

/-- Parsed command-line arguments: exactly the destinations defined by the
argparse configuration in `main` (src/dolma_batch_process.py, lines 39-69). -/
structure Args where
  manifest_file : String
  batch_num : Int
  hf_username : String
  hf_base_dataset_name : String
  hf_variant : Option String
  output_dir : String
deriving DecidableEq

/-- A Python attribute value on the parsed-arguments namespace. -/
inductive PyValue where
  | str (s : String)
  | int (i : Int)
  | pyNone
deriving DecidableEq

/-- The attribute table of the argparse namespace: one entry per defined
argument destination, nothing else. -/
def Args.attrs (a : Args) : List (String × PyValue) :=
  [("manifest_file", PyValue.str a.manifest_file),
   ("batch_num", PyValue.int a.batch_num),
   ("hf_username", PyValue.str a.hf_username),
   ("hf_base_dataset_name", PyValue.str a.hf_base_dataset_name),
   ("hf_variant", match a.hf_variant with
     | some v => PyValue.str v
     | none => PyValue.pyNone),
   ("output_dir", PyValue.str a.output_dir)]

/-- Python attribute lookup on the namespace: `none` means AttributeError. -/
def Args.getattr (a : Args) (name : String) : Option PyValue :=
  (a.attrs).lookup name

/-- The output parquet path (src/dolma_batch_process.py, lines 73-76). -/
def output_parquet_file (a : Args) : String :=
  a.output_dir ++ "/" ++ a.hf_base_dataset_name ++ "_extracted_inner_urls_batch_"
    ++ toString a.batch_num ++ ".parquet"

/-- Calls made against the remote hub API. -/
inductive RemoteCall where
  | createRepo (repo_id : String)
  | uploadFile (localPath pathInRepo repo_id : String)
deriving DecidableEq

/-- Final path component of a path (os.path.basename). -/
def basename (path : String) : String :=
  String.mk ((path.data.reverse.takeWhile (fun c => c != '/')).reverse)

/-- Embedding of `upload_to_hf` (src/dolma_batch_process.py, lines 136-176):
when the parquet file does not exist the function logs and returns without
contacting the remote API; otherwise it creates the repository idempotently
and uploads the file under `data/<basename>`. -/
def upload_to_hf (a : Args) (fs : FS) (parquet_filepath_to_upload : String) :
    Except PyErr Unit × List RemoteCall :=
  if fs.hasFile parquet_filepath_to_upload = false then
    (Except.ok (), [])
  else
    let repo_id := compose_repo_id a.hf_username a.hf_base_dataset_name a.hf_variant
    let path_in_repo := "data/" ++ basename parquet_filepath_to_upload
    (Except.ok (), [RemoteCall.createRepo repo_id,
      RemoteCall.uploadFile parquet_filepath_to_upload path_in_repo repo_id])

/-- Reading the manifest CSV (lines 92-98): two unnamed columns per line,
`outer_url` and `local_json_filepath`; the file paths column is returned. -/
def readManifest (fs : FS) (path : String) : Except PyErr (List String) :=
  match fs.inputs.lookup path with
  | none => Except.error (PyErr.fileNotFound path)
  | some (Blob.csvRows rows) => Except.ok (rows.map (fun r => r.2))
  | some _ => Except.error (PyErr.parseError path)

/-- Reading every gzip JSON-lines input file named in the manifest (the
read_json source of the query, line 104): any missing or unparseable file
fails the whole read. -/
def readJsonFiles (fs : FS) (paths : List String) :
    Except PyErr (List (List JSONRecord)) :=
  paths.mapM (fun p =>
    match fs.inputs.lookup p with
    | some (Blob.jsonlGz records) => Except.ok records
    | none => Except.error (PyErr.fileNotFound p)
    | some _ => Except.error (PyErr.parseError p))

/-- The `urls` CTE of the query (lines 100-105): `metadata.url` per record,
NULL when the record's metadata object or url field is absent. -/
def innerUrls (files : List (List JSONRecord)) : List (Option String) :=
  files.flatten.map (fun r => r.metadata.bind MetadataObj.url)

/-- The outer SELECT of the query (lines 106-111): keep non-NULL urls and
apply the registered `extract_domain` scalar UDF to each; a UDF exception
fails the query. -/
def runQuery (files : List (List JSONRecord)) : Except PyErr (List Row) :=
  ((innerUrls files).filter Option.isSome).mapM
    (fun u => (extract_domain_udf u).map (fun dm => (u, dm)))

/-- The try block of `main` (lines 85-118): read the manifest, run the
extraction query over the listed files, and COPY the result to the output
parquet path; a full disk makes the COPY fail after creating the file. -/
def processBatchTry (a : Args) (fs : FS) : Except PyErr Unit × FS :=
  let outPath := output_parquet_file a
  match readManifest fs a.manifest_file with
  | Except.error e => (Except.error e, fs)
  | Except.ok paths =>
    match readJsonFiles fs paths with
    | Except.error e => (Except.error e, fs)
    | Except.ok files =>
      match runQuery files with
      | Except.error e => (Except.error e, fs)
      | Except.ok rows =>
        if fs.diskFull then
          (Except.error (PyErr.ioError "COPY failed"), FS.writeOutput fs outPath [])
        else (Except.ok (), FS.writeOutput fs outPath rows)

/-- The try/except of `main` (lines 85-130): on any error in the try block,
remove the output parquet file if it exists, then re-raise. -/
def processBatch (a : Args) (fs : FS) : Except PyErr Unit × FS :=
  match processBatchTry a fs with
  | (Except.ok u, fs1) => (Except.ok u, fs1)
  | (Except.error e, fs1) => (Except.error e, FS.removeOutput fs1 (output_parquet_file a))

/-- Pipeline stages observable after `main` returns or raises. -/
inductive Stage where
  | manifestLoaded
  | extracted
  | exported
  | uploaded
deriving DecidableEq

/-- Embedding of `main` (src/dolma_batch_process.py, lines 38-133): after
argument parsing and makedirs, the log statement at lines 81-83 evaluates the
f-string `args.json_inner_url_path`; the argparse namespace defines no such
attribute, so the lookup raises before the try block.  The remainder models
the batch processing and the upload, with the stages reached. -/
def main (a : Args) (fs : FS) : Except PyErr Unit × FS × List Stage :=
  let outPath := output_parquet_file a
  match a.getattr "json_inner_url_path" with
  | none => (Except.error (PyErr.attributeError "json_inner_url_path"), fs, [])
  | some _ =>
    match processBatch a fs with
    | (Except.error e, fs1) => (Except.error e, fs1, [Stage.manifestLoaded])
    | (Except.ok _, fs1) =>
      match upload_to_hf a fs1 outPath with
      | (Except.ok _, _) =>
        (Except.ok (), fs1,
          [Stage.manifestLoaded, Stage.extracted, Stage.exported, Stage.uploaded])
      | (Except.error e, _) =>
        (Except.error e, fs1, [Stage.manifestLoaded, Stage.extracted, Stage.exported])

/-! ### Concrete scenario from the spec's end-to-end test -/

/-- First scenario record, the JSON line `{"metadata":{"url":"https://sub.example.co.uk/page"}}`. -/
def scenarioRecord1 : JSONRecord :=
  ⟨some ⟨some "https://sub.example.co.uk/page"⟩⟩

/-- Second scenario record, the JSON line `{"metadata":{}}`. -/
def scenarioRecord2 : JSONRecord :=
  ⟨some ⟨none⟩⟩

/-- File system of the end-to-end scenario: a manifest listing two gzip
JSON-lines files, each holding one record. -/
def scenarioFS : FS :=
  { inputs :=
      [("manifest.csv",
        Blob.csvRows [("http://outer/1", "f1.json.gz"), ("http://outer/2", "f2.json.gz")]),
       ("f1.json.gz", Blob.jsonlGz [scenarioRecord1]),
       ("f2.json.gz", Blob.jsonlGz [scenarioRecord2])],
    outputs := [],
    diskFull := false }

/-- Arguments of the end-to-end scenario run. -/
def scenarioArgs : Args :=
  { manifest_file := "manifest.csv",
    batch_num := 0,
    hf_username := "alice",
    hf_base_dataset_name := "dolma_extracted_inner_urls",
    hf_variant := none,
    output_dir := "out" }

/-- An empty file system, on which reading any manifest fails. -/
def emptyFS : FS :=
  { inputs := [], outputs := [], diskFull := false }

/-! ### Helper lemmas -/

/-- Filtering out every pair whose key equals `p` leaves no pair keyed `p`. -/
theorem any_filter_bne_eq_false (outs : List (String × List Row)) (p : String) :
    ((outs.filter (fun x => x.1 != p)).any (fun x => x.1 == p)) = false := by
  induction outs with
  | nil => rfl
  | cons x xs ih =>
    by_cases h : x.1 = p
    · simp [List.filter_cons, h, ih]
    · simp [List.filter_cons, h, ih]

/-- Removing the output at `path` makes the existence check at `path` false. -/
theorem FS.hasFile_removeOutput (fs : FS) (path : String) :
    (FS.removeOutput fs path).hasFile path = false := by
  simp only [FS.hasFile, FS.removeOutput]
  exact any_filter_bne_eq_false fs.outputs path

/-- The selected public suffix labels are a suffix of the host labels. -/
theorem pslSuffixLabels_isSuffix (ls : List (List Char)) :
    pslSuffixLabels ls <:+ ls := by
  induction ls with
  | nil => exact List.suffix_refl []
  | cons l rest ih =>
    by_cases h : joinDots (l :: rest) ∈ psl
    · simp [pslSuffixLabels, h]
    · have hb : ¬ (psl.contains (joinDots (l :: rest)) = true) := by simpa using h
      simp only [pslSuffixLabels, if_neg hb]
      exact ih.trans (List.suffix_cons l rest)

/-- A nonempty selected suffix is itself on the public suffix list. -/
theorem pslSuffixLabels_mem (ls : List (List Char))
    (h : pslSuffixLabels ls ≠ []) :
    joinDots (pslSuffixLabels ls) ∈ psl := by
  induction ls with
  | nil => simp [pslSuffixLabels] at h
  | cons l rest ih =>
    by_cases hc : joinDots (l :: rest) ∈ psl
    · have hb : psl.contains (joinDots (l :: rest)) = true := by simpa using hc
      simp only [pslSuffixLabels, if_pos hb]
      exact hc
    · have hb : ¬ (psl.contains (joinDots (l :: rest)) = true) := by simpa using hc
      simp only [pslSuffixLabels, if_neg hb] at h ⊢
      exact ih h

/-- Longest-match: any registered suffix of the labels is a suffix of the
selected one. -/
theorem pslSuffixLabels_max (ls s : List (List Char)) (hs : s <:+ ls)
    (hc : joinDots s ∈ psl) : s <:+ pslSuffixLabels ls := by
  induction ls with
  | nil =>
    have h0 : s = [] := List.suffix_nil.mp hs
    subst h0
    simp [pslSuffixLabels]
  | cons l rest ih =>
    by_cases h : joinDots (l :: rest) ∈ psl
    · simpa [pslSuffixLabels, h] using hs
    · have hb : ¬ (psl.contains (joinDots (l :: rest)) = true) := by simpa using h
      rcases List.suffix_cons_iff.mp hs with h1 | h1
      · exact absurd (h1 ▸ hc) h
      · simp only [pslSuffixLabels, if_neg hb]
        exact ih h1

/-- A nonempty label list that is itself registered is selected whole. -/
theorem pslSuffixLabels_self (ls : List (List Char)) (h : ls ≠ [])
    (hc : joinDots ls ∈ psl) : pslSuffixLabels ls = ls := by
  cases ls with
  | nil => exact absurd rfl h
  | cons l rest => simp [pslSuffixLabels, hc]

/-- Unfolding for the dot case of `splitDots`. -/
theorem splitDots_cons_dot (rest : List Char) :
    splitDots ('.' :: rest) = [] :: splitDots rest := by
  simp [splitDots]

/-- Unfolding for the non-dot case of `splitDots`. -/
theorem splitDots_cons_ne (a : Char) (rest : List Char) (h : a ≠ '.') :
    splitDots (a :: rest) =
      match splitDots rest with
      | [] => [[a]]
      | l :: ls => (a :: l) :: ls := by
  simp [splitDots, h]

/-- Splitting always yields at least one piece. -/
theorem splitDots_ne_nil (cs : List Char) : splitDots cs ≠ [] := by
  induction cs with
  | nil => simp [splitDots]
  | cons c rest ih =>
    rcases hm : splitDots rest with _ | ⟨l, ls⟩
    · exact absurd hm ih
    · by_cases h : c = '.'
      · subst h
        simp [splitDots_cons_dot]
      · rw [splitDots_cons_ne c rest h, hm]
        simp

/-- Every character of every piece comes from the input and is not a dot. -/
theorem mem_splitDots_chars (cs : List Char) :
    ∀ l ∈ splitDots cs, ∀ c ∈ l, c ∈ cs ∧ c ≠ '.' := by
  induction cs with
  | nil =>
    intro l hl c hc
    simp only [splitDots, List.mem_singleton] at hl
    subst hl
    exact absurd hc (List.not_mem_nil c)
  | cons a rest ih =>
    intro l hl c hc
    by_cases h : a = '.'
    · subst h
      rw [splitDots_cons_dot] at hl
      rcases List.mem_cons.mp hl with hl | hl
      · subst hl
        exact absurd hc (List.not_mem_nil c)
      · obtain ⟨h1, h2⟩ := ih l hl c hc
        exact ⟨List.mem_cons_of_mem _ h1, h2⟩
    · rcases hm : splitDots rest with _ | ⟨l0, ls⟩
      · exact absurd hm (splitDots_ne_nil rest)
      · rw [splitDots_cons_ne a rest h, hm] at hl
        rcases List.mem_cons.mp hl with hl | hl
        · subst hl
          rcases List.mem_cons.mp hc with hc | hc
          · subst hc
            exact ⟨List.mem_cons_self _ _, h⟩
          · obtain ⟨h1, h2⟩ := ih l0 (hm ▸ List.mem_cons_self l0 ls) c hc
            exact ⟨List.mem_cons_of_mem _ h1, h2⟩
        · obtain ⟨h1, h2⟩ := ih l (hm ▸ List.mem_cons_of_mem l0 hl) c hc
          exact ⟨List.mem_cons_of_mem _ h1, h2⟩

/-- A dot-free character list splits into a single piece. -/
theorem splitDots_of_not_mem (cs : List Char) (h : ('.' : Char) ∉ cs) :
    splitDots cs = [cs] := by
  induction cs with
  | nil => rfl
  | cons a rest ih =>
    have ha : a ≠ '.' := by
      intro he
      subst he
      exact h (List.mem_cons_self _ _)
    have hr : ('.' : Char) ∉ rest := fun hm => h (List.mem_cons_of_mem a hm)
    rw [splitDots_cons_ne a rest ha, ih hr]

/-- Splitting after a dot-free prefix ending in a dot peels off the prefix. -/
theorem splitDots_append_dot (l cs : List Char) (h : ('.' : Char) ∉ l) :
    splitDots (l ++ '.' :: cs) = l :: splitDots cs := by
  induction l with
  | nil => simpa using splitDots_cons_dot cs
  | cons a rest ih =>
    have ha : a ≠ '.' := by
      intro he
      subst he
      exact h (List.mem_cons_self _ _)
    have hr : ('.' : Char) ∉ rest := fun hm => h (List.mem_cons_of_mem a hm)
    rw [List.cons_append, splitDots_cons_ne a _ ha, ih hr]

/-- Splitting is a left inverse of joining on nonempty dot-free labels. -/
theorem splitDots_joinDots (ls : List (List Char)) (h0 : ls ≠ [])
    (h : ∀ l ∈ ls, ('.' : Char) ∉ l) : splitDots (joinDots ls) = ls := by
  induction ls with
  | nil => exact absurd rfl h0
  | cons l rest ih =>
    cases rest with
    | nil => exact splitDots_of_not_mem l (h l (List.mem_cons_self _ _))
    | cons l2 rest2 =>
      have hj : joinDots (l :: l2 :: rest2) = l ++ '.' :: joinDots (l2 :: rest2) := rfl
      rw [hj, splitDots_append_dot l _ (h l (List.mem_cons_self _ _)),
        ih (by simp) (fun x hx => h x (List.mem_cons_of_mem _ hx))]

/-- Every character of a join is a dot or comes from one of the labels. -/
theorem mem_joinDots (ls : List (List Char)) (c : Char) (hc : c ∈ joinDots ls) :
    c = '.' ∨ ∃ l ∈ ls, c ∈ l := by
  induction ls with
  | nil => exact absurd hc (List.not_mem_nil c)
  | cons l rest ih =>
    cases rest with
    | nil => exact Or.inr ⟨l, List.mem_cons_self _ _, hc⟩
    | cons l2 rest2 =>
      have hj : joinDots (l :: l2 :: rest2) = l ++ '.' :: joinDots (l2 :: rest2) := rfl
      rw [hj] at hc
      rcases List.mem_append.mp hc with h | h
      · exact Or.inr ⟨l, List.mem_cons_self _ _, h⟩
      · rcases List.mem_cons.mp h with h | h
        · exact Or.inl h
        · rcases ih h with h | ⟨l3, hl3, hcl3⟩
          · exact Or.inl h
          · exact Or.inr ⟨l3, List.mem_cons_of_mem _ hl3, hcl3⟩

/-- Every character of an extracted host avoids the URL delimiters. -/
theorem hostOf_chars (cs : List Char) (c : Char) (hc : c ∈ hostOf cs) :
    c ≠ '/' ∧ c ≠ '?' ∧ c ≠ '#' ∧ c ≠ '@' ∧ c ≠ ':' := by
  dsimp only [hostOf] at hc
  have hcolon : c ≠ ':' := by
    have hp := List.mem_takeWhile_imp hc
    simpa using hp
  have hc1 := (List.takeWhile_prefix _).subset hc
  rw [List.mem_reverse] at hc1
  have hat : c ≠ '@' := by
    have hp := List.mem_takeWhile_imp hc1
    simpa using hp
  have hc2 := (List.takeWhile_prefix _).subset hc1
  rw [List.mem_reverse] at hc2
  have hnet := List.mem_takeWhile_imp hc2
  have hend : isNetlocEnd c = false := by simpa using hnet
  simp only [isNetlocEnd, Bool.or_eq_false_iff, decide_eq_false_iff_not] at hend
  exact ⟨hend.1.1, hend.1.2, hend.2, hat, hcolon⟩

/-- The scheme stripper finds the separator of "https://" and returns the rest. -/
theorem dropScheme_https (d : List Char) :
    dropScheme ("https://".data ++ d) = d := rfl

/-- The host of "https://" followed by delimiter-free characters is exactly
those characters. -/
theorem hostOf_https_append (d : List Char)
    (h : ∀ c ∈ d, c ≠ '/' ∧ c ≠ '?' ∧ c ≠ '#' ∧ c ≠ '@' ∧ c ≠ ':') :
    hostOf ("https://".data ++ d) = d := by
  dsimp only [hostOf]
  rw [dropScheme_https]
  have hall : ∀ c ∈ d, (!isNetlocEnd c) = true := by
    intro c hcd
    obtain ⟨h1, h2, h3, _, _⟩ := h c hcd
    simp [isNetlocEnd, h1, h2, h3]
  rw [List.takeWhile_eq_self_iff.mpr hall]
  have hat : ∀ c ∈ d.reverse, (c != '@') = true := by
    intro c hcd
    rw [List.mem_reverse] at hcd
    obtain ⟨_, _, _, h4, _⟩ := h c hcd
    simpa using h4
  rw [List.takeWhile_eq_self_iff.mpr hat, List.reverse_reverse]
  have hcl : ∀ c ∈ d, (c != ':') = true := by
    intro c hcd
    obtain ⟨_, _, _, _, h5⟩ := h c hcd
    simpa using h5
  rw [List.takeWhile_eq_self_iff.mpr hcl]

/-- Core of idempotence: re-extracting from "https://" followed by the
domain and suffix computed for any host-label list (dot-free labels with no
URL delimiters) returns the same domain and suffix with an empty subdomain. -/
theorem extract_relabels (labels : List (List Char))
    (hdot : ∀ l ∈ labels, ('.' : Char) ∉ l)
    (hspec : ∀ l ∈ labels, ∀ c ∈ l, c ≠ '/' ∧ c ≠ '?' ∧ c ≠ '#' ∧ c ≠ '@' ∧ c ≠ ':')
    (hd : (labels.take (labels.length - (pslSuffixLabels labels).length)).getLastD [] ≠ [])
    (hs : joinDots (pslSuffixLabels labels) ≠ []) :
    extractCore ("https://".data ++
        ((labels.take (labels.length - (pslSuffixLabels labels).length)).getLastD [] ++
          '.' :: joinDots (pslSuffixLabels labels))) =
      ([],
       (labels.take (labels.length - (pslSuffixLabels labels).length)).getLastD [],
       joinDots (pslSuffixLabels labels)) := by
  have hsufne : pslSuffixLabels labels ≠ [] := by
    intro he
    rw [he] at hs
    exact hs rfl
  obtain ⟨t, ht⟩ := pslSuffixLabels_isSuffix labels
  have hlen : labels.length - (pslSuffixLabels labels).length = t.length := by
    have hL := congrArg List.length ht
    rw [List.length_append] at hL
    omega
  have hpre_t : labels.take (labels.length - (pslSuffixLabels labels).length) = t := by
    rw [hlen, ← ht, List.take_left]
  rw [hpre_t] at hd ⊢
  have hprene : t ≠ [] := by
    intro he
    rw [he] at hd
    exact hd rfl
  have hdom_last : t.getLastD [] = t.getLast hprene := by
    rw [List.getLastD_eq_getLast?, List.getLast?_eq_getLast t hprene]
    rfl
  rw [hdom_last] at hd ⊢
  have ht_split : t.dropLast ++ [t.getLast hprene] = t :=
    List.dropLast_append_getLast hprene
  have hlabels_eq : labels = t.dropLast ++ (t.getLast hprene :: pslSuffixLabels labels) := by
    have h1 : t.dropLast ++ (t.getLast hprene :: pslSuffixLabels labels) =
        (t.dropLast ++ [t.getLast hprene]) ++ pslSuffixLabels labels := by
      rw [List.append_assoc]
      rfl
    rw [h1, ht_split, ht]
  have hdom_mem : t.getLast hprene ∈ labels := by
    rw [← ht]
    exact List.mem_append_left _ (List.getLast_mem hprene)
  have hsub_mem : ∀ l ∈ pslSuffixLabels labels, l ∈ labels :=
    fun l hl => (pslSuffixLabels_isSuffix labels).subset hl
  have hd_chars : ∀ c ∈ t.getLast hprene ++ '.' :: joinDots (pslSuffixLabels labels),
      c ≠ '/' ∧ c ≠ '?' ∧ c ≠ '#' ∧ c ≠ '@' ∧ c ≠ ':' := by
    intro c hcmem
    rcases List.mem_append.mp hcmem with h | h
    · exact hspec _ hdom_mem c h
    · rcases List.mem_cons.mp h with h | h
      · subst h
        refine ⟨by decide, by decide, by decide, by decide, by decide⟩
      · rcases mem_joinDots _ c h with h | ⟨l, hl, hcl⟩
        · subst h
          refine ⟨by decide, by decide, by decide, by decide, by decide⟩
        · exact hspec l (hsub_mem l hl) c hcl
  have hhost2 : hostOf ("https://".data ++
      (t.getLast hprene ++ '.' :: joinDots (pslSuffixLabels labels))) =
      t.getLast hprene ++ '.' :: joinDots (pslSuffixLabels labels) :=
    hostOf_https_append _ hd_chars
  have hsplit2 : splitDots (t.getLast hprene ++ '.' :: joinDots (pslSuffixLabels labels)) =
      t.getLast hprene :: pslSuffixLabels labels := by
    rw [splitDots_append_dot _ _ (hdot _ hdom_mem),
      splitDots_joinDots _ hsufne (fun l hl => hdot l (hsub_mem l hl))]
  have hnotmem : joinDots (t.getLast hprene :: pslSuffixLabels labels) ∉ psl := by
    intro hmem
    have hsuf2 : (t.getLast hprene :: pslSuffixLabels labels) <:+ labels :=
      ⟨t.dropLast, hlabels_eq.symm⟩
    have hle := (pslSuffixLabels_max labels _ hsuf2 hmem).length_le
    simp at hle
  have hsel : pslSuffixLabels (t.getLast hprene :: pslSuffixLabels labels) =
      pslSuffixLabels labels := by
    have hb : ¬ (psl.contains (joinDots (t.getLast hprene :: pslSuffixLabels labels)) = true) := by
      simpa using hnotmem
    simp only [pslSuffixLabels, if_neg hb]
    exact pslSuffixLabels_self _ hsufne (pslSuffixLabels_mem labels hsufne)
  dsimp only [extractCore]
  rw [hhost2, hsplit2, hsel]
  have harith : (t.getLast hprene :: pslSuffixLabels labels).length -
      (pslSuffixLabels labels).length = 1 := by
    simp
  rw [harith, List.take_succ_cons, List.take_zero]
  rfl

/-- The UDF returns a value through its catch-all handler on every input. -/
theorem udf_total (url : Option String) :
    ∃ r, extract_domain_udf url = Except.ok r := by
  cases url with
  | none => exact ⟨none, rfl⟩
  | some u =>
    dsimp only [extract_domain_udf, tldextract_extract_checked]
    split
    · exact ⟨none, rfl⟩
    · exact ⟨_, rfl⟩

/-! ### Claim theorems -/

/-- C2: every invocation of `main`, for all argument values and file systems,
raises AttributeError on the f-string lookup of `args.json_inner_url_path`
before the manifest is read and before any extraction, export, or upload
stage is reached: the stage trace is empty and the file system is untouched. -/
theorem main_always_raises_attribute_error (a : Args) (fs : FS) :
    main a fs = (Except.error (PyErr.attributeError "json_inner_url_path"), fs, []) := by
  rfl

/-- C2 witness: the error on a concrete invocation. -/
theorem main_always_raises_attribute_error_witness :
    main scenarioArgs scenarioFS =
      (Except.error (PyErr.attributeError "json_inner_url_path"), scenarioFS, []) :=
  main_always_raises_attribute_error scenarioArgs scenarioFS

/-- C1 (code bug evidence): on the spec's end-to-end scenario — a manifest
listing two gzip JSON-lines files whose single records are
`{"metadata":{"url":"https://sub.example.co.uk/page"}}` and `{"metadata":{}}` —
`main` raises AttributeError before reaching any stage instead of producing
the output file, although the extraction query itself, run on those files,
yields exactly the one intended row
`("https://sub.example.co.uk/page", "example.co.uk")`. -/
theorem main_scenario_raises_despite_intended_row :
    main scenarioArgs scenarioFS =
      (Except.error (PyErr.attributeError "json_inner_url_path"), scenarioFS, []) ∧
    runQuery [[scenarioRecord1], [scenarioRecord2]] =
      Except.ok [(some "https://sub.example.co.uk/page", some "example.co.uk")] := by
  exact ⟨rfl, by decide⟩

/-- C10: when the parquet file does not exist on the local file system,
`upload_to_hf` returns normally with no remote create-repository or
upload-file call. -/
theorem upload_to_hf_missing_file_skips (a : Args) (fs : FS) (p : String)
    (h : fs.hasFile p = false) :
    upload_to_hf a fs p = (Except.ok (), []) := by
  simp [upload_to_hf, h]

/-- C10 witness: a concrete run with a missing artifact. -/
theorem upload_to_hf_missing_file_skips_witness :
    upload_to_hf scenarioArgs scenarioFS "out/missing.parquet" = (Except.ok (), []) :=
  upload_to_hf_missing_file_skips scenarioArgs scenarioFS "out/missing.parquet" (by decide)

/-- C7 counterexample: on the third spec vector the code yields
"alice_mydata_v2_v2", not "alice_mydata_v2": the variant "v2" is appended and
only the doubled separator inside "alice__mydata" is collapsed. -/
theorem compose_repo_id_third_vector_counterexample :
    compose_repo_id "alice__mydata" "v2" (some "v2") = "alice_mydata_v2_v2" ∧
    compose_repo_id "alice__mydata" "v2" (some "v2") ≠ "alice_mydata_v2" := by
  decide

/-- C7 amended: the three composition vectors as the code computes them; the
first two spec vectors hold and the third yields "alice_mydata_v2_v2". -/
theorem compose_repo_id_vectors_amended :
    compose_repo_id "alice" "mydata" none = "alice_mydata" ∧
    compose_repo_id "alice" "mydata" (some "default") = "alice_mydata" ∧
    compose_repo_id "alice__mydata" "v2" (some "v2") = "alice_mydata_v2_v2" := by
  decide

/-- C8 counterexample: the variant "Default" is neither absent nor equal to
the literal sentinel "default", yet the code omits it from the repository id
(the comparison is on the lowercased variant). -/
theorem variant_omission_case_counterexample :
    compose_repo_id "alice" "mydata" (some "Default") = "alice_mydata" ∧
    (some "Default" : Option String) ≠ none ∧ "Default" ≠ "default" := by
  decide

/-- C8 amended: the variant is omitted from the joined repository id parts if
and only if it is absent, empty, or lowercases to "default"; every other
variant string is appended. -/
theorem variant_omission_characterization (u b : String) (v : Option String) :
    (repo_id_parts u b v = [u, b] ↔
      v = none ∨ v = some "" ∨ ∃ s, v = some s ∧ pyLower s = "default") ∧
    (∀ s, v = some s → s ≠ "" → pyLower s ≠ "default" →
      repo_id_parts u b v = [u, b, s]) := by
  constructor
  · cases v with
    | none => simp [repo_id_parts]
    | some s =>
      by_cases h1 : s = ""
      · subst h1
        simp [repo_id_parts]
      · by_cases h2 : pyLower s = "default"
        · simp [repo_id_parts, h1, h2]
        · simp [repo_id_parts, h1, h2]
  · intro s hv h1 h2
    subst hv
    simp [repo_id_parts, h1, h2]

/-- C8 witness: a variant that is appended, via the amended characterization. -/
theorem variant_omission_characterization_witness :
    repo_id_parts "alice" "mydata" (some "v2") = ["alice", "mydata", "v2"] :=
  (variant_omission_characterization "alice" "mydata" (some "v2")).2 "v2" rfl
    (by decide) (by decide)

/-- C3: whenever the try block of `main` (manifest read, extraction query,
COPY export) raises any error, the batch stage re-raises that error and the
output parquet file does not exist afterward. -/
theorem batch_error_removes_output (a : Args) (fs : FS) (e : PyErr)
    (h : (processBatchTry a fs).1 = Except.error e) :
    (processBatch a fs).1 = Except.error e ∧
    (processBatch a fs).2.hasFile (output_parquet_file a) = false := by
  rcases hp : processBatchTry a fs with ⟨r, fs1⟩
  rw [hp] at h
  simp only at h
  subst h
  unfold processBatch
  rw [hp]
  exact ⟨rfl, FS.hasFile_removeOutput fs1 (output_parquet_file a)⟩

/-- C4: the domain-resolver UDF never raises — on every input it returns
normally through its catch-all handler; an absent input yields an absent
output, and any parse yielding an empty domain label or empty suffix label
yields an absent output rather than an error. -/
theorem extract_domain_udf_never_raises :
    (∀ url : Option String, ∃ r, extract_domain_udf url = Except.ok r) ∧
    extract_domain_udf none = Except.ok none ∧
    (∀ u : String,
      ((tldextract_extract u).domain = "" ∨ (tldextract_extract u).suffix = "") →
      extract_domain_udf (some u) = Except.ok none) := by
  refine ⟨udf_total, rfl, ?_⟩
  intro u h
  dsimp only [extract_domain_udf, tldextract_extract_checked]
  rw [if_pos h]

/-- C4 witness: an unparseable input maps to absent, via the theorem. -/
theorem extract_domain_udf_never_raises_witness :
    extract_domain_udf (some "not a url") = Except.ok none :=
  extract_domain_udf_never_raises.2.2 "not a url" (Or.inr (by decide))

/-- C5: whenever the parse of a URL yields a non-empty domain label and a
non-empty suffix label, the UDF returns the string "{domain}.{suffix}", and
the suffix labels are selected by longest registered public suffix matching:
no longer registered suffix of the host labels exists. -/
theorem extract_domain_udf_formats_domain (u : String)
    (hd : (tldextract_extract u).domain ≠ "")
    (hs : (tldextract_extract u).suffix ≠ "") :
    extract_domain_udf (some u) =
      Except.ok
        (some ((tldextract_extract u).domain ++ "." ++ (tldextract_extract u).suffix)) ∧
    (∀ s, s <:+ splitDots (hostOf u.data) → joinDots s ∈ psl →
      s.length ≤ (pslSuffixLabels (splitDots (hostOf u.data))).length) := by
  constructor
  · dsimp only [extract_domain_udf, tldextract_extract_checked]
    rw [if_neg (not_or.mpr ⟨hd, hs⟩)]
  · intro s hsuf hc
    exact (pslSuffixLabels_max _ s hsuf hc).length_le

/-- C5 witness: the URL with host sub.example.co.uk resolves to example.co.uk
(the longest registered suffix co.uk wins over uk). -/
theorem extract_domain_udf_formats_domain_witness :
    extract_domain_udf (some "https://sub.example.co.uk/page") =
      Except.ok (some "example.co.uk") := by
  rw [(extract_domain_udf_formats_domain "https://sub.example.co.uk/page"
    (by decide) (by decide)).1]
  decide

/-- Mapping the UDF over a url list inside the query succeeds and keeps the
url component of every produced row among the inputs. -/
theorem mapM_udf_ok (us : List (Option String)) :
    ∃ rows : List Row,
      us.mapM (fun u => (extract_domain_udf u).map (fun dm => (u, dm))) =
        Except.ok rows ∧
      rows.length = us.length ∧
      ∀ r ∈ rows, r.1 ∈ us := by
  induction us with
  | nil => exact ⟨[], rfl, rfl, by simp⟩
  | cons u us ih =>
    obtain ⟨rows, hr, hlen, hmem⟩ := ih
    obtain ⟨dm, hdm⟩ := udf_total u
    refine ⟨(u, dm) :: rows, ?_, by simp [hlen], ?_⟩
    · rw [List.mapM_cons, hdm, hr]
      rfl
    · intro r hrm
      rcases List.mem_cons.mp hrm with h | h
      · rw [h]
        exact List.mem_cons_self u us
      · exact List.mem_cons_of_mem u (hmem r h)

/-- C9: over any manifest of readable input files, the extraction result has
no row with an absent url, and its row count is bounded by the total record
count across the files. -/
theorem extraction_rows_urls_present_and_bounded (fs : FS) (paths : List String)
    (files : List (List JSONRecord)) (rows : List Row)
    (_h1 : readJsonFiles fs paths = Except.ok files)
    (h2 : runQuery files = Except.ok rows) :
    (∀ r ∈ rows, r.1.isSome = true) ∧
    rows.length ≤ (files.map List.length).sum := by
  obtain ⟨rows2, hr, hlen, hmem⟩ := mapM_udf_ok ((innerUrls files).filter Option.isSome)
  simp only [runQuery] at h2
  rw [hr] at h2
  injection h2 with h2
  subst h2
  constructor
  · intro r hrm
    exact (List.mem_filter.mp (hmem r hrm)).2
  · calc rows2.length = ((innerUrls files).filter Option.isSome).length := hlen
      _ ≤ (innerUrls files).length := List.length_filter_le _ _
      _ = (files.map List.length).sum := by
          simp [innerUrls, Function.comp_def]

/-- C9 witness: the scenario manifest yields one row with a present url and
row count below the two records. -/
theorem extraction_rows_urls_present_and_bounded_witness :
    (∀ r ∈ [((some "https://sub.example.co.uk/page" : Option String),
             (some "example.co.uk" : Option String))], r.1.isSome = true) ∧
    ([((some "https://sub.example.co.uk/page" : Option String),
       (some "example.co.uk" : Option String))].length ≤
      (([[scenarioRecord1], [scenarioRecord2]]).map List.length).sum) :=
  extraction_rows_urls_present_and_bounded scenarioFS ["f1.json.gz", "f2.json.gz"]
    [[scenarioRecord1], [scenarioRecord2]]
    [(some "https://sub.example.co.uk/page", some "example.co.uk")]
    (by decide) (by decide)

/-- C6: the domain resolver is deterministic, and idempotent on every URL it
resolves: whenever it maps a URL to a domain, resolving the URL rebuilt as
"https://" followed by that domain yields the same domain. -/
theorem extract_domain_udf_idempotent (u d : String)
    (h : extract_domain_udf (some u) = Except.ok (some d)) :
    extract_domain_udf (some u) = extract_domain_udf (some u) ∧
    extract_domain_udf (some ("https://" ++ d)) = Except.ok (some d) := by
  refine ⟨rfl, ?_⟩
  dsimp only [extract_domain_udf, tldextract_extract_checked] at h ⊢
  rcases Decidable.em
      ((tldextract_extract u).domain = "" ∨ (tldextract_extract u).suffix = "") with
    hcond | hcond
  · rw [if_pos hcond] at h
    exact absurd h (by simp)
  · rw [if_neg hcond] at h
    push_neg at hcond
    obtain ⟨hd, hs⟩ := hcond
    have hds : (tldextract_extract u).domain ++ "." ++ (tldextract_extract u).suffix = d := by
      simpa using h
    have hdom_def : (tldextract_extract u).domain = String.mk (extractCore u.data).2.1 := rfl
    have hsuf_def : (tldextract_extract u).suffix = String.mk (extractCore u.data).2.2 := rfl
    have hdne : (extractCore u.data).2.1 ≠ [] := by
      intro he
      apply hd
      rw [hdom_def, he]
    have hsne : (extractCore u.data).2.2 ≠ [] := by
      intro he
      apply hs
      rw [hsuf_def, he]
    have hdot : ∀ l ∈ splitDots (hostOf u.data), ('.' : Char) ∉ l := by
      intro l hl hcl
      exact (mem_splitDots_chars _ l hl '.' hcl).2 rfl
    have hspec2 : ∀ l ∈ splitDots (hostOf u.data), ∀ c ∈ l,
        c ≠ '/' ∧ c ≠ '?' ∧ c ≠ '#' ∧ c ≠ '@' ∧ c ≠ ':' := by
      intro l hl c hcl
      exact hostOf_chars u.data c (mem_splitDots_chars _ l hl c hcl).1
    have hrelab2 : extractCore ("https://".data ++
        ((extractCore u.data).2.1 ++ '.' :: (extractCore u.data).2.2)) =
        ([], (extractCore u.data).2.1, (extractCore u.data).2.2) :=
      extract_relabels (splitDots (hostOf u.data)) hdot hspec2 hdne hsne
    have hdd : d.data = (extractCore u.data).2.1 ++ '.' :: (extractCore u.data).2.2 := by
      rw [← hds, hdom_def, hsuf_def]
      rw [String.data_append, String.data_append]
      show (extractCore u.data).2.1 ++ ['.'] ++ (extractCore u.data).2.2 = _
      rw [List.append_assoc]
      rfl
    have hE : tldextract_extract ("https://" ++ d) =
        ⟨String.mk [], String.mk (extractCore u.data).2.1,
         String.mk (extractCore u.data).2.2⟩ := by
      show (⟨String.mk (extractCore ("https://" ++ d).data).1,
             String.mk (extractCore ("https://" ++ d).data).2.1,
             String.mk (extractCore ("https://" ++ d).data).2.2⟩ : ExtractResult) = _
      rw [String.data_append, hdd, hrelab2]
    have hcond2 : ¬(String.mk (extractCore u.data).2.1 = "" ∨
        String.mk (extractCore u.data).2.2 = "") := by
      rintro (he | he)
      · exact hd (by rw [hdom_def]; exact he)
      · exact hs (by rw [hsuf_def]; exact he)
    rw [hE]
    dsimp only
    rw [if_neg hcond2, ← hdom_def, ← hsuf_def, hds]

/-- C6 witness: idempotence at a concrete resolved URL. -/
theorem extract_domain_udf_idempotent_witness :
    extract_domain_udf (some ("https://" ++ "example.co.uk")) =
      Except.ok (some "example.co.uk") :=
  (extract_domain_udf_idempotent "https://sub.example.co.uk/page" "example.co.uk"
    (by decide)).2

/-- C3 witness: a missing manifest file fails the batch and leaves no output. -/
theorem batch_error_removes_output_witness :
    (processBatch scenarioArgs emptyFS).1 =
      Except.error (PyErr.fileNotFound "manifest.csv") ∧
    (processBatch scenarioArgs emptyFS).2.hasFile (output_parquet_file scenarioArgs) = false :=
  batch_error_removes_output scenarioArgs emptyFS (PyErr.fileNotFound "manifest.csv")
    (by decide)

end DataTransfer
